import Mathlib

/-!
Shallow embedding of the LL(1) grammar-analysis engine of
`src/grammar/grammar.py` (classes `Production`, `Grammar`, `TableCell`,
`LL1Table` and their methods), and proofs about it.

Python exceptions are modelled by the error type `PyErr`; a computation
that may raise and may also fail to terminate is modelled with explicit
fuel as `Res α = Option (Except PyErr α)`: `none` means the recursion was
not finished within the fuel bound (in Python: unbounded recursion or an
unbounded loop), `some (Except.error e)` a raised exception and
`some (Except.ok a)` a normal return.  Symbols are `Char` (the source uses
one-character strings); the empty-string marker ε that Python stores in
FIRST sets is `(none : Option Char)`, a terminal `t` in a FIRST set is
`some t`.

A Python `set` is embedded as a duplicate-free `List` carrying one
enumeration of its elements (a Python set also enumerates its elements in
some arbitrary order); wherever the source compares sets (`==` on sets or
on dicts of sets) the embedding compares extensionally (`eqSetB`), and
set-valued results are stated through `List.toFinset` so no theorem
depends on the enumeration order.
-/

/-- Python exceptions raised by the source: `ValueError`, `IndexError`
(from `self.productions[0]` on an empty collection), `KeyError` (a dict
lookup of a missing key), `RepeatedCellError` and `SyntaxError`. -/
inductive PyErr where
  | valueErr
  | indexErr
  | keyErr
  | repeatedCellErr
  | synErr
deriving DecidableEq, Repr

deriving instance DecidableEq for Except

/-- Result of a fuelled, possibly raising computation: `none` = fuel ran
out (the Python code would still be recursing/looping), `some` = the call
returned or raised. -/
abbrev Res (α : Type) := Option (Except PyErr α)

def rpure {α : Type} (a : α) : Res α := some (Except.ok a)

def rthrow {α : Type} (e : PyErr) : Res α := some (Except.error e)

def rbind {α β : Type} : Res α → (α → Res β) → Res β
  | none, _ => none
  | some (Except.error e), _ => some (Except.error e)
  | some (Except.ok a), f => f a

/-- `a | b` on embedded sets: keep `a`, then the members of `b` not
already present. -/
def unionS {α : Type} [DecidableEq α] (a b : List α) : List α :=
  a ++ b.filter (fun x => decide (x ∉ a))

/-- Extensional equality, which is what `==` means on Python sets. -/
def eqSetB {α : Type} [DecidableEq α] (a b : List α) : Bool :=
  a.all (fun x => decide (x ∈ b)) && b.all (fun x => decide (x ∈ a))

/-- `Production(left, right)` of the source: `left` a symbol, `right` a
string of symbols (the empty list is an epsilon production). -/
structure Production where
  left : Char
  right : List Char
deriving DecidableEq, Repr

/-- `Grammar(terminals, non_terminals, productions, axiom)` of the source.
The start-symbol field (named after the reserved word for an axiom in the
source) is called `axm` here. -/
structure Grammar where
  terminals : List Char
  nonTerminals : List Char
  productions : List Production
  axm : Char
deriving DecidableEq

/-- The validation `Grammar.__init__` performs: disjoint alphabets, the
start symbol a non-terminal, and every production over the alphabets
(`p.right is not None` always holds for string inputs and is dropped).
`true` = construction succeeds, `false` = it raises `ValueError`. -/
def grammarValid (G : Grammar) : Bool :=
  G.terminals.all (fun t => decide (t ∉ G.nonTerminals)) &&
  decide (G.axm ∈ G.nonTerminals) &&
  G.productions.all (fun p =>
    decide (p.left ∈ G.nonTerminals) &&
    p.right.all (fun s => decide (s ∈ G.nonTerminals) || decide (s ∈ G.terminals)))

/-- A FIRST set as the source computes it: terminals as `some t`, the
empty-string marker `''` as `none`. -/
abbrev FirstSet := List (Option Char)

/-- The union loop of `Grammar.compute_first_rec` (`first_set |= ...` over
the productions whose left side matches, threading the accumulator);
`recF` is the recursive call at the smaller fuel, `none` when it does not
finish. -/
def firstUnionWith (recF : List Char → Option FirstSet) (rest : List Char) :
    List Production → FirstSet → Option FirstSet
  | [], acc => some acc
  | p :: ps, acc =>
    match recF (p.right ++ rest) with
    | none => none
    | some s => firstUnionWith recF rest ps (unionS acc s)

/-- `Grammar.compute_first_rec`, with fuel bounding the recursion depth
through non-terminal expansions.  An empty sentence yields `{''}`; a
sentence headed by a terminal yields that terminal alone; otherwise the
union over the productions whose left side is the head symbol. -/
def computeFirstRecF (G : Grammar) : Nat → List Char → Option FirstSet
  | _, [] => some [none]
  | fuel, a :: rest =>
    if a ∈ G.terminals then some [some a]
    else
      match fuel with
      | 0 => none
      | f + 1 =>
        firstUnionWith (fun s => computeFirstRecF G f s) rest
          (G.productions.filter (fun p => p.left == a)) []

/-- `Grammar.compute_first`: raises `ValueError` when a symbol of the
sentence is in neither alphabet, otherwise delegates to
`compute_first_rec`. -/
def computeFirstF (G : Grammar) (fuel : Nat) (sentence : List Char) : Res FirstSet :=
  if sentence.all (fun s => decide (s ∈ G.terminals) || decide (s ∈ G.nonTerminals)) then
    (computeFirstRecF G fuel sentence).map Except.ok
  else
    rthrow PyErr.valueErr

/-- The terminals of a FIRST set (the entries other than `''`). -/
def charsOf (fs : FirstSet) : List Char := fs.filterMap id

/-- The dict `follows` of `Grammar.compute_follow`, keyed by the
non-terminals. -/
abbrev FollowMap := List (Char × List Char)

/-- Read `follows[c]`.  Inside `compute_follow` every key that is read is
present whenever the grammar passed validation, so the lookup is total
here (missing keys return `∅`). -/
def fmGet (m : FollowMap) (c : Char) : List Char :=
  ((m.find? (fun e => e.1 == c)).map (fun e => e.2)).getD []

/-- `follows[c] = follows[c].union(extra)`. -/
def fmAdd (m : FollowMap) (c : Char) (extra : List Char) : FollowMap :=
  m.map (fun e => if e.1 = c then (e.1, unionS e.2 extra) else e)

/-- `follows == follows_old`: same keys, and the value sets extensionally
equal (Python compares the dicts, and their values are sets). -/
def fmEq : FollowMap → FollowMap → Bool
  | [], [] => true
  | e1 :: m1, e2 :: m2 => e1.1 == e2.1 && eqSetB e1.2 e2.2 && fmEq m1 m2
  | _, _ => false

/-- The initial `follows`: every non-terminal mapped to `∅`, then `'$'`
added to the entry of `seed`, the left symbol of the FIRST production in
the given order (not the declared start symbol). -/
def initFollowMap (G : Grammar) (seed : Char) : FollowMap :=
  G.nonTerminals.map (fun c => (c, if c = seed then ['$'] else []))

/-- The inner `for i, s in enumerate(p.right)` of one production `p` with
left symbol `left`: walking the right side, each non-terminal symbol `s`
receives `follows[left]` when it is last or when ε is in the FIRST of what
follows it, and the non-ε part of that FIRST set otherwise;
`compute_first` is called on the rest and may raise or diverge. -/
def followSyms (G : Grammar) (fuel : Nat) (left : Char) :
    FollowMap → List Char → Res FollowMap
  | m, [] => rpure m
  | m, s :: rest =>
    rbind
      (if s ∈ G.nonTerminals then
        if rest = [] then rpure (fmAdd m s (fmGet m left))
        else
          rbind (computeFirstF G fuel rest) (fun fs =>
            let m1 := if (none : Option Char) ∈ fs then fmAdd m s (fmGet m left) else m
            rpure (fmAdd m1 s (charsOf fs)))
      else rpure m)
      (fun m2 => followSyms G fuel left m2 rest)

/-- One full pass `for p in self.productions` of the fixed-point loop. -/
def followPassF (G : Grammar) (fuel : Nat) : FollowMap → List Production → Res FollowMap
  | m, [] => rpure m
  | m, p :: ps => rbind (followSyms G fuel p.left m p.right) (fun m2 => followPassF G fuel m2 ps)

/-- The `while True` loop of `compute_follow`: repeat passes until one
leaves the map unchanged; `passes` bounds the number of passes. -/
def followLoopF (G : Grammar) (fuel : Nat) : Nat → FollowMap → Res FollowMap
  | 0, _ => none
  | passes + 1, m =>
    rbind (followPassF G fuel m G.productions) (fun m2 =>
      if fmEq m2 m then rpure m2 else followLoopF G fuel passes m2)

/-- `Grammar.compute_follow(symbol)`: seeds `'$'` into the entry of
`self.productions[0].left` (an `IndexError` when there is no production),
runs the fixed-point loop, and returns `follows[symbol]` (a `KeyError`
when `symbol` is not a non-terminal). -/
def computeFollowF (G : Grammar) (fuel : Nat) (symbol : Char) : Res (List Char) :=
  match G.productions with
  | [] => rthrow PyErr.indexErr
  | p0 :: _ =>
    rbind (followLoopF G fuel fuel (initFollowMap G p0.left)) (fun m =>
      match m.find? (fun e => e.1 == symbol) with
      | some e => rpure e.2
      | none => rthrow PyErr.keyErr)

/-- `TableCell(non_terminal, terminal, right)` of the source. -/
structure TableCell where
  nonTerminal : Char
  terminal : Char
  right : List Char
deriving DecidableEq, Repr

/-- The key of a cell: the `(non_terminal, terminal)` pair. -/
def keyOf (c : TableCell) : Char × Char := (c.nonTerminal, c.terminal)

/-- The dict `self.cells` of `LL1Table`, keyed by
`(non_terminal, terminal)`. -/
abbrev CellMap := List ((Char × Char) × List Char)

/-- `m[k] = v` on a Python dict: overwrite the entry when the key is
present, append it otherwise. -/
def dictInsert (k : Char × Char) (v : List Char) : CellMap → CellMap
  | [] => [(k, v)]
  | e :: m => if e.1 = k then (k, v) :: m else e :: dictInsert k v m

/-- `k in m` / `m[k]` on the cells dict. -/
def dictLookup (m : CellMap) (k : Char × Char) : Option (List Char) :=
  (m.find? (fun e => e.1 == k)).map (fun e => e.2)

/-- `LL1Table(non_terminals, terminals, cells)` of the source, after
construction: the two alphabets and the cells dict. -/
structure LL1Table where
  terminals : List Char
  nonTerminals : List Char
  cells : CellMap
deriving DecidableEq, Repr

/-- One cell's validation inside `LL1Table.__init__`. -/
def cellValid (nts ts : List Char) (c : TableCell) : Bool :=
  decide (c.nonTerminal ∈ nts) && decide (c.terminal ∈ ts) &&
  c.right.all (fun s => decide (s ∈ nts) || decide (s ∈ ts))

/-- `LL1Table.__init__(non_terminals, terminals, cells)`: `ValueError`
when the alphabets intersect or a cell mentions an undeclared symbol;
otherwise the cells dict is built by the comprehension
`{(c.non_terminal, c.terminal): c.right for c in cells}` (a later cell
with the same key overwrites an earlier one). -/
def mkLL1Table (nts ts : List Char) (cells : List TableCell) : Except PyErr LL1Table :=
  if ts.any (fun t => decide (t ∈ nts)) then Except.error PyErr.valueErr
  else if cells.all (cellValid nts ts) then
    Except.ok ⟨ts, nts, cells.foldl (fun m c => dictInsert (keyOf c) c.right m) []⟩
  else Except.error PyErr.valueErr

/-- `LL1Table.add_cell`, as a state transformer: the table after the call
together with the exception it raised, if any.  A `RepeatedCellError`
leaves the cells dict untouched. -/
def addCellState (T : LL1Table) (c : TableCell) : LL1Table × Option PyErr :=
  if dictLookup T.cells (keyOf c) ≠ none then (T, some PyErr.repeatedCellErr)
  else ({ T with cells := dictInsert (keyOf c) c.right T.cells }, none)

/-- The cells one production contributes in `Grammar.get_ll1_table`: one
cell `(left, t) → right` per terminal `t` of FIRST(right), and, when ε is
in FIRST(right), one cell `(left, t2) → right` per `t2` of FOLLOW(left). -/
def cellsOfProduction (G : Grammar) (fuel : Nat) (p : Production) : Res (List TableCell) :=
  rbind (computeFirstF G fuel p.right) (fun fs =>
    let firstCells := (charsOf fs).map (fun t => TableCell.mk p.left t p.right)
    if (none : Option Char) ∈ fs then
      rbind (computeFollowF G fuel p.left) (fun fl =>
        rpure (firstCells ++ fl.map (fun t2 => TableCell.mk p.left t2 p.right)))
    else rpure firstCells)

/-- The duplicate check of `get_ll1_table`: walk the cells of one
production, returning `none` at the first key already in `used` (the
method then returns no table) and the grown `used` otherwise. -/
def placeKeys : List TableCell → List (Char × Char) → Option (List (Char × Char))
  | [], used => some used
  | c :: cs, used =>
    if keyOf c ∈ used then none else placeKeys cs (keyOf c :: used)

/-- The production loop of `get_ll1_table`, threading `used` and the
accumulated cells, and ending in the `LL1Table` constructor call
`LL1Table(self.non_terminals, self.terminals.union(set('$')), cells)`. -/
def ll1Go (G : Grammar) (fuel : Nat) :
    List Production → List (Char × Char) → List TableCell → Res (Option LL1Table)
  | [], _, acc =>
    match mkLL1Table G.nonTerminals (unionS G.terminals ['$']) acc with
    | Except.ok t => rpure (some t)
    | Except.error e => rthrow e
  | p :: ps, used, acc =>
    rbind (cellsOfProduction G fuel p) (fun cs =>
      match placeKeys cs used with
      | none => rpure none
      | some used2 => ll1Go G fuel ps used2 (acc ++ cs))

/-- `Grammar.get_ll1_table`: `rpure none` is Python's `return None` (the
grammar is not LL(1)). -/
def getLL1TableF (G : Grammar) (fuel : Nat) : Res (Option LL1Table) :=
  ll1Go G fuel G.productions [] []

/-- All cells the construction would attempt to place, production by
production, ignoring the duplicate check. -/
def attemptCellsF (G : Grammar) (fuel : Nat) : List Production → Res (List TableCell)
  | [] => rpure []
  | p :: ps =>
    rbind (cellsOfProduction G fuel p) (fun cs =>
      rbind (attemptCellsF G fuel ps) (fun rest => rpure (cs ++ rest)))

/-- The result of `LL1Table.analyze`: the parse-tree stub on success. -/
abbrev AnalyzeRes := Option (Except PyErr Unit)

/-- `LL1Table.analyze(input_string, start)`, with fuel bounding the number
of loop iterations.  Each iteration looks up `(stack head, input head)`,
raising `SyntaxError` when absent, replaces the stack head by the
production's right side, and matches at most one terminal; after the loop
the remaining input must be exactly `'$'`. -/
def analyzeF (T : LL1Table) : Nat → List Char → List Char → AnalyzeRes
  | 0, _, _ => none
  | fuel + 1, input, stack =>
    match stack, input with
    | s0 :: s1, i0 :: i1 =>
      (match dictLookup T.cells (s0, i0) with
      | none => some (Except.error PyErr.synErr)
      | some rhs =>
        match rhs ++ s1 with
        | [] => analyzeF T fuel (i0 :: i1) []
        | t0 :: t1 =>
          if t0 = i0 then analyzeF T fuel i1 t1
          else analyzeF T fuel (i0 :: i1) (t0 :: t1))
    | _, _ =>
      if input = ['$'] then some (Except.ok ()) else some (Except.error PyErr.synErr)

/-- How one run of `analyze` leaves the loop: `noEntry pair` when the pair
`(stack head, input head)` had no cell, `loopExit rem` when the loop guard
failed (empty stack or empty input) with `rem` the remaining input. -/
inductive ExitEv where
  | noEntry (pair : Char × Char)
  | loopExit (rem : List Char)
deriving DecidableEq, Repr

/-- The same loop as `analyzeF`, instrumented to report how it exited
instead of collapsing the exit into raise/return. -/
def analyzeTraceF (T : LL1Table) : Nat → List Char → List Char → Option ExitEv
  | 0, _, _ => none
  | fuel + 1, input, stack =>
    match stack, input with
    | s0 :: s1, i0 :: i1 =>
      (match dictLookup T.cells (s0, i0) with
      | none => some (ExitEv.noEntry (s0, i0))
      | some rhs =>
        match rhs ++ s1 with
        | [] => analyzeTraceF T fuel (i0 :: i1) []
        | t0 :: t1 =>
          if t0 = i0 then analyzeTraceF T fuel i1 t1
          else analyzeTraceF T fuel (i0 :: i1) (t0 :: t1))
    | _, _ => some (ExitEv.loopExit input)

/-- Sentential derivation in a grammar: `Derives G s t` when `t` is
reachable from `s` by rewriting with productions of `G`. -/
inductive Derives (G : Grammar) (s : List Char) : List Char → Prop
  | refl : Derives G s s
  | step (u : List Char) (A : Char) (v γ : List Char) :
      Derives G s (u ++ A :: v) → Production.mk A γ ∈ G.productions →
      Derives G s (u ++ γ ++ v)

/-- The cells a production attempts, as a plain list (empty when the
underlying FIRST/FOLLOW computations raise or do not finish). -/
def cellsListOf (G : Grammar) (fuel : Nat) (p : Production) : List TableCell :=
  match cellsOfProduction G fuel p with
  | some (Except.ok cs) => cs
  | _ => []

/-- A conflict in the sense of the specification: two DISTINCT productions
of `G` attempt a cell with the same `(non-terminal, terminal)` key. -/
def distinctConflict (G : Grammar) (fuel : Nat) : Prop :=
  ∃ p1 ∈ G.productions, ∃ p2 ∈ G.productions, p1 ≠ p2 ∧
    ∃ c1 ∈ cellsListOf G fuel p1, ∃ c2 ∈ cellsListOf G fuel p2, keyOf c1 = keyOf c2

instance (G : Grammar) (fuel : Nat) : Decidable (distinctConflict G fuel) := by
  unfold distinctConflict
  exact inferInstance

/-- Whether a run of `analyze` raises `SyntaxError` (at some fuel the
fuelled run returns that exception). -/
def analyzeRaises (T : LL1Table) (input stack : List Char) : Prop :=
  ∃ f, analyzeF T f input stack = some (Except.error PyErr.synErr)

/-- Whether a run of `analyze` returns successfully. -/
def analyzeAccepts (T : LL1Table) (input stack : List Char) : Prop :=
  ∃ f, analyzeF T f input stack = some (Except.ok ())

/-- Condition (a): at some step of the loop the pair (top of stack,
current input symbol) has no entry in the table. -/
def analyzeNoEntryEv (T : LL1Table) (input stack : List Char) : Prop :=
  ∃ f pr, analyzeTraceF T f input stack = some (ExitEv.noEntry pr)

/-- Condition (b): the loop exits (empty stack or exhausted input) with
the remaining input different from the single end marker. -/
def analyzeBadExitEv (T : LL1Table) (input stack : List Char) : Prop :=
  ∃ f rem, analyzeTraceF T f input stack = some (ExitEv.loopExit rem) ∧ rem ≠ ['$']

/-- The claim under test for C6, at one table and one call of `analyze`:
a syntax error is raised iff (a) or (b) happens, and in every other case
`analyze` returns success. -/
def analyzeErrorClaimAt (T : LL1Table) (input stack : List Char) : Prop :=
  (analyzeRaises T input stack ↔
    (analyzeNoEntryEv T input stack ∨ analyzeBadExitEv T input stack)) ∧
  (¬ analyzeRaises T input stack → analyzeAccepts T input stack)

/-- `compute_first` computes `r` on `s`: at some fuel the fuelled wrapper
returns `r`. -/
def FirstComputes (G : Grammar) (s : List Char) (r : FirstSet) : Prop :=
  ∃ f, computeFirstF G f s = rpure r

/-- C1's grammar: productions given with the production of the start
symbol SECOND, so `productions[0].left = 'A' ≠ axiom = 'S'`. -/
def gFoll : Grammar := ⟨['a'], ['S', 'A'], [⟨'A', ['a']⟩, ⟨'S', ['A']⟩], 'S'⟩

/-- C2's grammar: the cyclic production `A → A`. -/
def gCyc : Grammar := ⟨['a'], ['A'], [⟨'A', ['A']⟩], 'A'⟩

/-- C3's grammar: the same production `S → a` listed twice. -/
def gDup : Grammar := ⟨['a'], ['S'], [⟨'S', ['a']⟩, ⟨'S', ['a']⟩], 'S'⟩

/-- C4's grammar: `S → ab`, whose right side has two adjacent
terminals. -/
def gAB : Grammar := ⟨['a', 'b'], ['S'], [⟨'S', ['a', 'b']⟩], 'S'⟩

/-- The LL(1) table `get_ll1_table` builds for `gAB`. -/
def tabAB : LL1Table := ⟨['a', 'b', '$'], ['S'], [(('S', 'a'), ['a', 'b'])]⟩

/-- C6's table: the cell `(S, a) → S` makes `analyze` rewrite the stack
to itself forever on input `a$`. -/
def tabLoop : LL1Table := ⟨['a', '$'], ['S'], [(('S', 'a'), ['S'])]⟩

/-- C10's grammar: a valid grammar with no production at all. -/
def gEmpty : Grammar := ⟨['a'], ['S'], [], 'S'⟩



/-! ### Helper lemmas -/

theorem rpure_inj {α : Type} {a b : α} (h : rpure a = rpure b) : a = b := by
  simpa [rpure] using h

theorem rbind_eq_rpure {α β : Type} {x : Res α} {f : α → Res β} {b : β}
    (h : rbind x f = rpure b) : ∃ a, x = rpure a ∧ f a = rpure b := by
  match x, h with
  | some (Except.ok a), h => exact ⟨a, rfl, h⟩

theorem dictLookup_cons (e : (Char × Char) × List Char) (m : CellMap) (k : Char × Char) :
    dictLookup (e :: m) k = if e.1 = k then some e.2 else dictLookup m k := by
  by_cases h : e.1 = k
  · simp [dictLookup, List.find?, h]
  · have hb : (e.1 == k) = false := by simpa using h
    simp [dictLookup, List.find?, h, hb]

theorem dictLookup_dictInsert (kk k : Char × Char) (v : List Char) :
    ∀ m : CellMap, dictLookup (dictInsert kk v m) k =
      if kk = k then some v else dictLookup m k := by
  intro m
  induction m with
  | nil =>
    rw [show dictInsert kk v [] = [(kk, v)] from rfl, dictLookup_cons]
  | cons e m ih =>
    by_cases he : e.1 = kk
    · rw [show dictInsert kk v (e :: m) = (kk, v) :: m by simp [dictInsert, he],
        dictLookup_cons, dictLookup_cons]
      by_cases h : kk = k
      · simp [h]
      · simp [h, he]
    · rw [show dictInsert kk v (e :: m) = e :: dictInsert kk v m by simp [dictInsert, he],
        dictLookup_cons, ih, dictLookup_cons]
      by_cases h2 : e.1 = k
      · have hkk : ¬ kk = k := fun hk => he (by rw [hk, ← h2])
        simp [h2, hkk]
      · simp [h2]

/-- `a.orElse b` written as a plain function, to keep statements match-free. -/
def orO {α : Type} : Option α → Option α → Option α
  | some a, _ => some a
  | none, b => b

theorem orO_none {α : Type} (a : Option α) : orO a none = a := by
  cases a <;> rfl

theorem find?_append {α : Type} (p : α → Bool) :
    ∀ l1 l2 : List α, (l1 ++ l2).find? p = orO (l1.find? p) (l2.find? p) := by
  intro l1 l2
  induction l1 with
  | nil => simp [orO]
  | cons a l1 ih =>
    by_cases h : p a = true
    · simp [List.find?, h, orO]
    · simp only [List.cons_append, List.find?, h]
      simpa [h] using ih

/-! ### C1: FOLLOW is seeded from the first production, not the axiom -/

/-- C1 (code_bug evidence).  `gFoll` is a valid grammar whose productions
are listed with the start symbol's production second; the source seeds
`'$'` into FOLLOW of `productions[0].left = 'A'`, so
`compute_follow` of the declared start symbol `'S'` returns the empty
set: it does NOT contain `'$'`, contradicting the claim that
`compute_follow(axiom)` always contains the end marker. -/
theorem c1_follow_seed_bug :
    grammarValid gFoll = true ∧ gFoll.productions ≠ [] ∧ gFoll.axm = 'S' ∧
    (gFoll.productions.head?.map Production.left = some 'A') ∧
    computeFollowF gFoll 10 'S' = rpure [] := by
  decide

/-! ### C2: compute_first does not terminate on the cyclic grammar -/

theorem cyc_rec_none : ∀ f, computeFirstRecF gCyc f ['A'] = none := by
  intro f
  induction f with
  | zero => rfl
  | succ f ih =>
    show computeFirstRecF gCyc (f + 1) ['A'] = none
    rw [computeFirstRecF]
    rw [if_neg (by decide)]
    have hfilter : gCyc.productions.filter (fun p => p.left == 'A') = [⟨'A', ['A']⟩] := by
      decide
    rw [hfilter, firstUnionWith]
    simp only [List.append_nil]
    rw [ih]

/-- C2 (code_bug evidence).  On the valid grammar with the production
`A → A`, `compute_first("A")` never returns: at every fuel bound the
recursion is still running (in Python: unbounded recursion until
`RecursionError`), contradicting the claim that `compute_first`
terminates and returns a set for every sentence. -/
theorem c2_first_cycle_diverges :
    grammarValid gCyc = true ∧ ∀ f, computeFirstF gCyc f ['A'] = none := by
  refine ⟨by decide, fun f => ?_⟩
  unfold computeFirstF
  rw [if_pos (by decide), cyc_rec_none f]
  rfl

/-! ### C10: compute_follow on a grammar with no production -/

/-- C10.  For every grammar whose production collection is empty (which
`Grammar.__init__` accepts as valid), `compute_follow` raises an
indexing error (`self.productions[0]`) for every symbol, instead of
returning a set containing `'$'` for the start symbol. -/
theorem c10_empty_productions_follow_fails (G : Grammar) (fuel : Nat) (symbol : Char)
    (_hv : grammarValid G = true) (hp : G.productions = []) :
    computeFollowF G fuel symbol = rthrow PyErr.indexErr := by
  unfold computeFollowF
  rw [hp]

theorem c10_empty_productions_follow_fails_witness :
    computeFollowF gEmpty 3 'S' = rthrow PyErr.indexErr :=
  c10_empty_productions_follow_fails gEmpty 3 'S' (by decide) rfl

/-! ### C8: the add_cell contract -/

/-- C8.  `add_cell` raises `RepeatedCellError` iff the table already has
an entry at the cell's `(non_terminal, terminal)` key; in the error case
the cells dict is unchanged, and otherwise the call succeeds and the dict
afterwards maps that key to the cell's right side. -/
theorem c8_add_cell_contract (T : LL1Table) (c : TableCell) :
    ((addCellState T c).2 = some PyErr.repeatedCellErr ↔
      dictLookup T.cells (keyOf c) ≠ none) ∧
    (dictLookup T.cells (keyOf c) ≠ none → (addCellState T c).1 = T) ∧
    (dictLookup T.cells (keyOf c) = none →
      (addCellState T c).2 = none ∧
      dictLookup (addCellState T c).1.cells (keyOf c) = some c.right) := by
  by_cases h : dictLookup T.cells (keyOf c) = none
  · refine ⟨by simp [addCellState, h], fun hc => absurd h hc, fun _ => ⟨by simp [addCellState, h], ?_⟩⟩
    simp only [addCellState, h, ne_eq, not_true_eq_false, if_neg, not_false_eq_true,
      if_false]
    simpa using dictLookup_dictInsert (keyOf c) (keyOf c) c.right T.cells
  · exact ⟨by simp [addCellState, h], fun _ => by simp [addCellState, h],
      fun hc => absurd hc h⟩

/-! ### C4: the round-trip property fails -/

/-- C4 (code_bug evidence).  `gAB` (productions `S → ab`) is valid and
LL(1): `get_ll1_table` returns the table `tabAB`.  The string `ab` is
derivable from the start symbol, yet `analyze("ab$", "S")` raises
`SyntaxError`: after the expansion `S → ab` the loop matches `'a'`, and
the next iteration looks up the pair `('b', 'b')`, which no cell of the
table (keyed by non-terminals only) can match.  This contradicts the
claim that the table accepts exactly the derivable strings terminated by
`'$'`. -/
theorem c4_roundtrip_bug :
    grammarValid gAB = true ∧
    getLL1TableF gAB 10 = rpure (some tabAB) ∧
    Derives gAB ['S'] ['a', 'b'] ∧
    analyzeF tabAB 10 ['a', 'b', '$'] ['S'] = some (Except.error PyErr.synErr) := by
  refine ⟨by decide, by decide, ?_, by decide⟩
  exact Derives.step [] 'S' [] ['a', 'b'] Derives.refl (by decide)

/-! ### C3: conflicts are keyed, not keyed per production -/

theorem placeKeys_eq_none_iff :
    ∀ (cs : List TableCell) (used : List (Char × Char)),
      placeKeys cs used = none ↔
        ¬ (cs.map keyOf).Nodup ∨ ∃ k ∈ cs.map keyOf, k ∈ used := by
  intro cs
  induction cs with
  | nil => simp [placeKeys]
  | cons c cs ih =>
    intro used
    by_cases h : keyOf c ∈ used
    · simp only [placeKeys, if_pos h]
      constructor
      · intro _
        exact Or.inr ⟨keyOf c, by simp, h⟩
      · intro _
        trivial
    · simp only [placeKeys, if_neg h, ih]
      by_cases hc : keyOf c ∈ cs.map keyOf
      · constructor
        · intro _
          exact Or.inl (by simp [hc])
        · intro _
          exact Or.inr ⟨keyOf c, hc, List.mem_cons_self _ _⟩
      · simp only [List.map_cons, List.nodup_cons, hc, not_false_eq_true, true_and,
          List.mem_cons]
        constructor
        · rintro (hn | ⟨k, hk, hku⟩)
          · exact Or.inl hn
          · rcases hku with rfl | hku
            · exact absurd hk hc
            · exact Or.inr ⟨k, Or.inr hk, hku⟩
        · rintro (hn | ⟨k, hk, hku⟩)
          · exact Or.inl hn
          · rcases hk with rfl | hk
            · exact absurd hku h
            · exact Or.inr ⟨k, hk, Or.inr hku⟩

theorem placeKeys_eq_some :
    ∀ (cs : List TableCell) (used used2 : List (Char × Char)),
      placeKeys cs used = some used2 →
      ∀ k, k ∈ used2 ↔ k ∈ used ∨ k ∈ cs.map keyOf := by
  intro cs
  induction cs with
  | nil =>
    intro used used2 h k
    simp only [placeKeys, Option.some.injEq] at h
    simp [← h]
  | cons c cs ih =>
    intro used used2 h k
    by_cases hc : keyOf c ∈ used
    · simp [placeKeys, if_pos hc] at h
    · simp only [placeKeys, if_neg hc] at h
      rw [ih (keyOf c :: used) used2 h k]
      simp only [List.mem_cons, List.map_cons]
      tauto

theorem ll1Go_none_iff (G : Grammar) (fuel : Nat) :
    ∀ (ps : List Production) (used : List (Char × Char)) (acc cs : List TableCell),
      attemptCellsF G fuel ps = rpure cs →
      (ll1Go G fuel ps used acc = rpure none ↔
        ¬ (cs.map keyOf).Nodup ∨ ∃ k ∈ cs.map keyOf, k ∈ used) := by
  intro ps
  induction ps with
  | nil =>
    intro used acc cs h
    have hcs : cs = [] := (rpure_inj h).symm
    subst hcs
    simp only [List.map_nil, List.nodup_nil, not_true_eq_false, List.not_mem_nil,
      false_and, exists_false, or_false, false_or]
    cases hmk : mkLL1Table G.nonTerminals (unionS G.terminals ['$']) acc with
    | ok t => simp [ll1Go, hmk, rpure]
    | error e => simp [ll1Go, hmk, rpure, rthrow]
  | cons p ps ih =>
    intro used acc cs h
    obtain ⟨c1, hc1, hrest⟩ := rbind_eq_rpure h
    obtain ⟨c2, hc2, hpure⟩ := rbind_eq_rpure hrest
    have hcs : cs = c1 ++ c2 := (rpure_inj hpure).symm
    subst hcs
    have hgo : ll1Go G fuel (p :: ps) used acc =
        (match placeKeys c1 used with
        | none => rpure none
        | some used2 => ll1Go G fuel ps used2 (acc ++ c1)) := by
      simp [ll1Go, hc1, rbind, rpure]
    rw [hgo]
    cases hpk : placeKeys c1 used with
    | none =>
      have hfail := (placeKeys_eq_none_iff c1 used).mp hpk
      simp only [List.map_append]
      constructor
      · intro _
        rcases hfail with hnd | ⟨k, hk, hku⟩
        · exact Or.inl fun hn => hnd (List.nodup_append.mp hn).1
        · exact Or.inr ⟨k, List.mem_append_left _ hk, hku⟩
      · intro _
        trivial
    | some used2 =>
      have hok : ¬ (placeKeys c1 used = none) := by simp [hpk]
      rw [placeKeys_eq_none_iff] at hok
      push_neg at hok
      obtain ⟨hnd1, hdisj1⟩ := hok
      have hmem := placeKeys_eq_some c1 used used2 hpk
      rw [ih used2 (acc ++ c1) c2 hc2]
      simp only [List.map_append, List.nodup_append]
      constructor
      · rintro (hnd2 | ⟨k, hk, hku⟩)
        · exact Or.inl fun hn => hnd2 hn.2.1
        · rcases (hmem k).mp hku with hku2 | hkc1
          · exact Or.inr ⟨k, List.mem_append_right _ hk, hku2⟩
          · exact Or.inl fun hn => hn.2.2 hkc1 hk
      · rintro (hnd | ⟨k, hk, hku⟩)
        · by_cases hnd2 : (c2.map keyOf).Nodup
          · refine Or.inr ?_
            have : ¬ List.Disjoint (c1.map keyOf) (c2.map keyOf) := fun hd =>
              hnd ⟨hnd1, hnd2, hd⟩
            rw [List.disjoint_right] at this
            push_neg at this
            obtain ⟨k, hk2, hk1⟩ := this
            exact ⟨k, hk2, (hmem k).mpr (Or.inr hk1)⟩
          · exact Or.inl hnd2
        · rcases List.mem_append.mp hk with hk1 | hk2
          · exact absurd hku (hdisj1 k hk1)
          · exact Or.inr ⟨k, hk2, (hmem k).mpr (Or.inl hku)⟩

/-- C3 (amended).  `get_ll1_table` returns no table exactly when some
`(non-terminal, terminal)` key is attempted more than once over the whole
cell-placement scan — duplicate occurrences of one production, and the
FIRST- and FOLLOW-driven attempts of a single production, count too; the
source keys its `used` check by the pair alone, not by the production. -/
theorem c3_none_iff_repeated_key (G : Grammar) (fuel : Nat) (cs : List TableCell)
    (h : attemptCellsF G fuel G.productions = rpure cs) :
    getLL1TableF G fuel = rpure none ↔ ¬ (cs.map keyOf).Nodup := by
  rw [getLL1TableF, ll1Go_none_iff G fuel G.productions [] [] cs h]
  simp

theorem c3_none_iff_repeated_key_witness :
    getLL1TableF gDup 5 = rpure none ↔
      ¬ (([⟨'S', 'a', ['a']⟩, ⟨'S', 'a', ['a']⟩] : List TableCell).map keyOf).Nodup :=
  c3_none_iff_repeated_key gDup 5 [⟨'S', 'a', ['a']⟩, ⟨'S', 'a', ['a']⟩] (by decide)

/-- C3 (counterexample).  In `gDup` the production `S → a` is listed
twice; the source returns no table although no two DISTINCT productions
claim a common cell — the claim's "only one and the same production
attempts to fill a given cell more than once is still declared LL(1)"
fails on the code. -/
theorem c3_same_production_counterexample :
    grammarValid gDup = true ∧ getLL1TableF gDup 5 = rpure none ∧
      ¬ distinctConflict gDup 5 := by
  refine ⟨by decide, by decide, by decide⟩

/-! ### C6: when analyze raises, when it returns, and when it does neither -/

/-- C6 (amended).  For every table, input, start symbol and fuel bound
within which the loop finishes, `analyze` raises a syntax error iff
(a) some step found no entry for the pair (top of stack, current input
symbol), or (b) the loop exited with the remaining input different from
the single end marker `'$'`; it returns success exactly when the loop
exited with remaining input `['$']`.  (The original claim is false
without the termination proviso: the loop need not terminate, see the
counterexample.) -/
theorem c6_error_iff_exit_events (T : LL1Table) (fuel : Nat) (input stack : List Char) :
    (analyzeF T fuel input stack = some (Except.error PyErr.synErr) ↔
      (∃ pr, analyzeTraceF T fuel input stack = some (ExitEv.noEntry pr)) ∨
      (∃ rem, analyzeTraceF T fuel input stack = some (ExitEv.loopExit rem) ∧
        rem ≠ ['$'])) ∧
    (analyzeF T fuel input stack = some (Except.ok ()) ↔
      analyzeTraceF T fuel input stack = some (ExitEv.loopExit ['$'])) := by
  induction fuel generalizing input stack with
  | zero => simp [analyzeF, analyzeTraceF]
  | succ f ih =>
    cases stack with
    | nil =>
      by_cases hi : input = ['$'] <;> simp [analyzeF, analyzeTraceF, hi]
    | cons s0 s1 =>
      cases input with
      | nil => simp [analyzeF, analyzeTraceF]
      | cons i0 i1 =>
        cases hl : dictLookup T.cells (s0, i0) with
        | none => simp [analyzeF, analyzeTraceF, hl]
        | some rhs =>
          cases hr : rhs ++ s1 with
          | nil =>
            simpa [analyzeF, analyzeTraceF, hl, hr] using ih (i0 :: i1) []
          | cons t0 t1 =>
            by_cases ht : t0 = i0
            · simpa [analyzeF, analyzeTraceF, hl, hr, ht] using ih i1 t1
            · simpa [analyzeF, analyzeTraceF, hl, hr, ht] using ih (i0 :: i1) (t0 :: t1)

theorem tabLoop_analyzeF_none : ∀ f, analyzeF tabLoop f ['a', '$'] ['S'] = none := by
  intro f
  induction f with
  | zero => rfl
  | succ f ih =>
    have hl : dictLookup tabLoop.cells ('S', 'a') = some ['S'] := rfl
    simpa [analyzeF, hl] using ih

theorem tabLoop_analyzeTraceF_none : ∀ f, analyzeTraceF tabLoop f ['a', '$'] ['S'] = none := by
  intro f
  induction f with
  | zero => rfl
  | succ f ih =>
    have hl : dictLookup tabLoop.cells ('S', 'a') = some ['S'] := rfl
    simpa [analyzeTraceF, hl] using ih

/-- C6 (counterexample).  On the table with the single cell
`(S, a) → S`, `analyze("a$", "S")` rewrites the stack to itself forever:
it neither raises a syntax error nor returns.  Neither exit condition (a)
nor (b) ever happens, so the claim — which then demands that `analyze`
return success — fails at this table and input. -/
theorem c6_divergent_loop_counterexample :
    ¬ analyzeErrorClaimAt tabLoop ['a', '$'] ['S'] := by
  rintro ⟨-, h2⟩
  have hraise : ¬ analyzeRaises tabLoop ['a', '$'] ['S'] := by
    rintro ⟨f, hf⟩
    rw [tabLoop_analyzeF_none f] at hf
    cases hf
  obtain ⟨f, hf⟩ := h2 hraise
  rw [tabLoop_analyzeF_none f] at hf
  cases hf

/-! ### C7: the invalid-symbol error of compute_first -/

/-- C7.  `compute_first` raises the invalid-symbol `ValueError` iff some
symbol of the sentence is in neither the terminal nor the non-terminal
alphabet; when every symbol is in their union no such error is raised
(at any fuel: the validation loop runs before the recursion). -/
theorem c7_invalid_symbol_iff (G : Grammar) (fuel : Nat) (s : List Char)
    (_hv : grammarValid G = true) :
    computeFirstF G fuel s = rthrow PyErr.valueErr ↔
      ∃ c ∈ s, c ∉ G.terminals ∧ c ∉ G.nonTerminals := by
  unfold computeFirstF
  by_cases h : s.all (fun c => decide (c ∈ G.terminals) || decide (c ∈ G.nonTerminals)) = true
  · rw [if_pos h]
    rw [List.all_eq_true] at h
    constructor
    · intro hc
      exfalso
      cases hrec : computeFirstRecF G fuel s with
      | none => rw [hrec] at hc; simp [rthrow] at hc
      | some fs => rw [hrec] at hc; simp [rthrow] at hc
    · rintro ⟨c, hcs, hct, hcn⟩
      exfalso
      have := h c hcs
      simp only [Bool.or_eq_true, decide_eq_true_eq] at this
      tauto
  · rw [if_neg h]
    simp only [List.all_eq_true, not_forall] at h
    obtain ⟨c, hcs, hcp⟩ := h
    simp only [Bool.or_eq_true, decide_eq_true_eq, not_or] at hcp
    exact iff_of_true rfl ⟨c, hcs, hcp.1, hcp.2⟩

theorem c7_invalid_symbol_iff_witness :
    computeFirstF gFoll 3 ['w'] = rthrow PyErr.valueErr ↔
      ∃ c ∈ (['w'] : List Char), c ∉ gFoll.terminals ∧ c ∉ gFoll.nonTerminals :=
  c7_invalid_symbol_iff gFoll 3 ['w'] (by decide)

/-! ### C5: the recursive FIRST equations -/

theorem unionS_toFinset {α : Type} [DecidableEq α] (a b : List α) :
    (unionS a b).toFinset = a.toFinset ∪ b.toFinset := by
  ext x
  simp only [unionS, List.toFinset_append, Finset.mem_union, List.mem_toFinset,
    List.mem_filter, decide_eq_true_eq]
  tauto

theorem firstUnionWith_some (recF : List Char → Option FirstSet) (rest : List Char) :
    ∀ (ps : List Production) (acc r : FirstSet),
      firstUnionWith recF rest ps acc = some r →
      ∃ rs, List.Forall₂ (fun p rp => recF (p.right ++ rest) = some rp) ps rs ∧
        r.toFinset = acc.toFinset ∪ (rs.map List.toFinset).foldr (· ∪ ·) ∅ := by
  intro ps
  induction ps with
  | nil =>
    intro acc r h
    simp only [firstUnionWith, Option.some.injEq] at h
    exact ⟨[], List.Forall₂.nil, by simp [← h]⟩
  | cons p ps ih =>
    intro acc r h
    cases hp : recF (p.right ++ rest) with
    | none => rw [firstUnionWith, hp] at h; cases h
    | some s =>
      rw [firstUnionWith, hp] at h
      obtain ⟨rs, hall, hfin⟩ := ih _ _ h
      refine ⟨s :: rs, List.Forall₂.cons hp hall, ?_⟩
      rw [hfin, unionS_toFinset]
      simp [Finset.union_assoc]

theorem forall₂_imp_mem {α β : Type} {R S : α → β → Prop} :
    ∀ {l1 : List α} {l2 : List β}, List.Forall₂ R l1 l2 →
      (∀ a ∈ l1, ∀ b, R a b → S a b) → List.Forall₂ S l1 l2 := by
  intro l1 l2 h
  induction h with
  | nil => intro _; exact List.Forall₂.nil
  | @cons a b la lb hab _ ih =>
    intro hmem
    exact List.Forall₂.cons (hmem a (by simp) b hab)
      (ih fun x hx y hr => hmem x (by simp [hx]) y hr)

theorem computeFirstF_eq_rpure {G : Grammar} {f : Nat} {s : List Char} {r : FirstSet}
    (h : computeFirstF G f s = rpure r) : computeFirstRecF G f s = some r := by
  unfold computeFirstF at h
  by_cases hc : s.all (fun c => decide (c ∈ G.terminals) || decide (c ∈ G.nonTerminals)) = true
  · rw [if_pos hc] at h
    cases hrec : computeFirstRecF G f s with
    | none => rw [hrec] at h; simp [rpure] at h
    | some fs => rw [hrec] at h; simpa [rpure] using h
  · rw [if_neg hc] at h
    simp [rthrow, rpure] at h

/-- C5.  On every valid grammar, `compute_first` satisfies the recursive
FIRST definition on the computations that terminate: the empty sentence
yields `{ε}`; a sentence headed by a terminal `a` yields `{a}` whatever
the rest is; and a sentence headed by a non-terminal `A` yields the union,
over the productions `A → γ`, of the (also terminating) FIRST computations
of `γ` concatenated with the rest. -/
theorem c5_first_recursive_spec (G : Grammar) (hv : grammarValid G = true) :
    (∀ r, FirstComputes G [] r → r.toFinset = {(none : Option Char)}) ∧
    (∀ a rest r, a ∈ G.terminals → FirstComputes G (a :: rest) r →
      r.toFinset = {some a}) ∧
    (∀ A rest r, A ∈ G.nonTerminals →
      (∀ c ∈ rest, c ∈ G.terminals ∨ c ∈ G.nonTerminals) →
      FirstComputes G (A :: rest) r →
      ∃ rs, List.Forall₂
          (fun (p : Production) rp => FirstComputes G (p.right ++ rest) rp)
          (G.productions.filter (fun p => p.left == A)) rs ∧
        r.toFinset = (rs.map List.toFinset).foldr (· ∪ ·) ∅) := by
  simp only [grammarValid, Bool.and_eq_true, List.all_eq_true, decide_eq_true_eq,
    Bool.or_eq_true] at hv
  obtain ⟨⟨hdisj, _⟩, hprods⟩ := hv
  refine ⟨?_, ?_, ?_⟩
  · rintro r ⟨f, hf⟩
    have hrec := computeFirstF_eq_rpure hf
    rw [show computeFirstRecF G f [] = some [none] by cases f <;> rfl] at hrec
    obtain rfl : ([none] : FirstSet) = r := Option.some.inj hrec
    simp
  · rintro a rest r ha ⟨f, hf⟩
    have hrec := computeFirstF_eq_rpure hf
    rw [show computeFirstRecF G f (a :: rest) = some [some a] by
      cases f <;> simp [computeFirstRecF, ha]] at hrec
    obtain rfl : ([some a] : FirstSet) = r := Option.some.inj hrec
    simp
  · rintro A rest r hA hrest ⟨f, hf⟩
    have hAT : A ∉ G.terminals := fun hT => (hdisj A hT) hA
    have hrec := computeFirstF_eq_rpure hf
    cases f with
    | zero => simp [computeFirstRecF, hAT] at hrec
    | succ f2 =>
      rw [show computeFirstRecF G (f2 + 1) (A :: rest) =
          firstUnionWith (fun s => computeFirstRecF G f2 s) rest
            (G.productions.filter (fun p => p.left == A)) [] by
        simp [computeFirstRecF, hAT]] at hrec
      obtain ⟨rs, hall, hfin⟩ := firstUnionWith_some _ rest _ [] r hrec
      refine ⟨rs, ?_, by simpa using hfin⟩
      refine forall₂_imp_mem hall ?_
      rintro p hp rp hrp
      have hpG : p ∈ G.productions := (List.mem_filter.mp hp).1
      have hvalid : (p.right ++ rest).all
          (fun c => decide (c ∈ G.terminals) || decide (c ∈ G.nonTerminals)) = true := by
        rw [List.all_eq_true]
        intro c hc
        simp only [Bool.or_eq_true, decide_eq_true_eq]
        rcases List.mem_append.mp hc with hc1 | hc2
        · exact Or.symm ((hprods p hpG).2 c hc1)
        · exact hrest c hc2
      exact ⟨f2, by rw [computeFirstF, if_pos hvalid, hrp]; rfl⟩

theorem c5_first_recursive_spec_witness :
    (∀ r, FirstComputes gAB [] r → r.toFinset = {(none : Option Char)}) ∧
    (∀ a rest r, a ∈ gAB.terminals → FirstComputes gAB (a :: rest) r →
      r.toFinset = {some a}) ∧
    (∀ A rest r, A ∈ gAB.nonTerminals →
      (∀ c ∈ rest, c ∈ gAB.terminals ∨ c ∈ gAB.nonTerminals) →
      FirstComputes gAB (A :: rest) r →
      ∃ rs, List.Forall₂
          (fun (p : Production) rp => FirstComputes gAB (p.right ++ rest) rp)
          (gAB.productions.filter (fun p => p.left == A)) rs ∧
        r.toFinset = (rs.map List.toFinset).foldr (· ∪ ·) ∅) :=
  c5_first_recursive_spec gAB (by decide)

/-! ### C9: LL1Table construction keeps the last cell for a repeated key -/

theorem dictLookup_foldl_insert :
    ∀ (cells : List TableCell) (init : CellMap) (k : Char × Char),
      dictLookup (cells.foldl (fun m c => dictInsert (keyOf c) c.right m) init) k =
        orO ((cells.reverse.find? (fun c => keyOf c == k)).map (fun c => c.right))
          (dictLookup init k) := by
  intro cells
  induction cells with
  | nil =>
    intro init k
    simp [orO]
  | cons c cs ih =>
    intro init k
    rw [List.foldl_cons, ih, List.reverse_cons, find?_append, dictLookup_dictInsert]
    cases hf : cs.reverse.find? (fun c2 => keyOf c2 == k) with
    | some c2 => simp [orO, hf]
    | none =>
      by_cases hk : keyOf c = k
      · simp [orO, hf, List.find?, hk]
      · have hb : (keyOf c == k) = false := by simpa using hk
        simp [orO, hf, List.find?, hk, hb]

/-- C9.  `LL1Table.__init__` performs no duplicate-key check: any cell
collection that passes the alphabet validation is accepted (no error is
raised), and for every key the resulting dict holds the right side of the
LAST cell with that key in the collection's order (the dict comprehension
overwrites earlier entries). -/
theorem c9_init_last_cell_wins (nts ts : List Char) (cells : List TableCell)
    (hd : ts.any (fun t => decide (t ∈ nts)) = false)
    (hc : cells.all (cellValid nts ts) = true) :
    ∃ T, mkLL1Table nts ts cells = Except.ok T ∧
      ∀ k, dictLookup T.cells k =
        (cells.reverse.find? (fun c => keyOf c == k)).map (fun c => c.right) := by
  refine ⟨⟨ts, nts, cells.foldl (fun m c => dictInsert (keyOf c) c.right m) []⟩, ?_, ?_⟩
  · simp [mkLL1Table, hd, hc]
  · intro k
    rw [dictLookup_foldl_insert]
    rw [show dictLookup [] k = none from rfl, orO_none]

theorem c9_init_last_cell_wins_witness :
    ∃ T, mkLL1Table ['S'] ['a', 'b']
        [⟨'S', 'a', ['a']⟩, ⟨'S', 'a', ['b']⟩] = Except.ok T ∧
      ∀ k, dictLookup T.cells k =
        (([⟨'S', 'a', ['a']⟩, ⟨'S', 'a', ['b']⟩] : List TableCell).reverse.find?
          (fun c => keyOf c == k)).map (fun c => c.right) :=
  c9_init_last_cell_wins ['S'] ['a', 'b'] [⟨'S', 'a', ['a']⟩, ⟨'S', 'a', ['b']⟩]
    (by decide) (by decide)
